import Mathlib

/-!
Verification of the `filetree` package (`internal/filetree/filetree.go`):
a path-indexed lookup structure keyed by POSIX-style paths.

Strings are modelled as `List Char`.  `Clean` is a faithful port of Go's
`path.Clean`, `splitDir` models the directory component of `path.Split`,
and the tree operations `Put`, `Get`, `LongestPrefix` follow the Go code
line by line.
-/

namespace Filetree

/-- Strings, modelled as lists of characters. -/
abbrev Str : Type := List Char

/-- Convert a Lean string literal into the model type. -/
def str (s : String) : Str := s.toList

/-- Directory component of Go's `path.Split`: `path[:strings.LastIndex(path, "/")+1]`,
the prefix of `s` up to and including the last `'/'`, or `[]` when `s` has no slash. -/
def splitDir : Str → Str
  | [] => []
  | c :: rest => if '/' ∈ rest then c :: splitDir rest else if c = '/' then ['/'] else []

theorem length_dropWhile_le (p : Char → Bool) (l : Str) :
    (l.dropWhile p).length ≤ l.length := by
  induction l with
  | nil => simp
  | cons c rest ih =>
    rw [List.dropWhile_cons]
    by_cases h : p c
    · simp only [if_pos h, List.length_cons]
      omega
    · simp [h]

theorem splitDir_length_le (s : Str) : (splitDir s).length ≤ s.length := by
  induction s with
  | nil => simp [splitDir]
  | cons c rest ih =>
    rw [splitDir]
    by_cases h : '/' ∈ rest
    · simp only [if_pos h, List.length_cons]
      omega
    · simp only [if_neg h]
      by_cases hc : c = '/' <;> simp [hc]

/-- The `out.w--; for out.w > dotdot && out.index(out.w) != '/' { out.w-- }` loop
from the `..` case of `path.Clean`, viewed on the reversed buffer: `buf` is the
reversed remaining content and `c` is the character most recently truncated. -/
def popRev (dotdot : Nat) : Str → Char → Str
  | [], _ => []
  | c' :: rest, c =>
    if dotdot < (c' :: rest).length ∧ c ≠ '/' then popRev dotdot rest c'
    else c' :: rest

/-- Truncate the buffer `out` after a `..` segment, as `path.Clean` does:
drop the final character, then keep dropping while the write index exceeds
`dotdot` and the character just dropped is not `'/'`. -/
def popBuf (dotdot : Nat) (out : Str) : Str :=
  match out.reverse with
  | [] => out
  | c :: rbuf => (popRev dotdot rbuf c).reverse

theorem popBuf_eq {d : Nat} {out : Str} {c : Char} {rbuf : Str} (h : out.reverse = c :: rbuf) :
    popBuf d out = (popRev d rbuf c).reverse := by
  rw [popBuf.eq_def, h]

/-- Main loop of Go's `path.Clean`: `rest` is the unread suffix of the input,
`out` the output buffer, `dotdot` the index the `..` backtracking may not cross. -/
def cleanLoop (rooted : Bool) (rest : Str) (out : Str) (dotdot : Nat) : Str :=
  match rest with
  | [] => out
  | c :: r =>
    if c = '/' then
      -- empty path element
      cleanLoop rooted r out dotdot
    else if c = '.' ∧ (r = [] ∨ r.head? = some '/') then
      -- . element
      cleanLoop rooted r out dotdot
    else if c = '.' ∧ r.head? = some '.' ∧ (r.tail = [] ∨ r.tail.head? = some '/') then
      -- .. element: remove to last /
      if dotdot < out.length then
        cleanLoop rooted r.tail (popBuf dotdot out) dotdot
      else if rooted then
        cleanLoop rooted r.tail out dotdot
      else
        let out2 := (if 0 < out.length then out ++ ['/'] else out) ++ ['.', '.']
        cleanLoop rooted r.tail out2 out2.length
    else
      -- real path element: add slash if needed, then copy the element
      let out2 := if (rooted ∧ out.length ≠ 1) ∨ (¬rooted ∧ out.length ≠ 0) then
        out ++ ['/'] else out
      cleanLoop rooted (r.dropWhile (· ≠ '/')) (out2 ++ c :: r.takeWhile (· ≠ '/')) dotdot
termination_by rest.length
decreasing_by
  all_goals simp only [List.length_cons, List.length_tail]
  all_goals try omega
  have := length_dropWhile_le (fun x => decide (x ≠ '/')) rest
  omega

/-- Go's `path.Clean`, ported faithfully. -/
def Clean (p : Str) : Str :=
  if p = [] then ['.']
  else
    let rooted : Bool := p.head? == some '/'
    let out := if rooted then cleanLoop rooted p.tail ['/'] 1 else cleanLoop rooted p [] 0
    if out = [] then ['.'] else out

/-- `normalize` from filetree.go: `path.Clean("/" + filename)`. -/
def normalize (filename : Str) : Str := Clean ('/' :: filename)

/-- One item of the file hierarchy, as in filetree.go (`Value` models the
Go `interface{}` field, with `none` for Go's `nil`). -/
inductive Entry (V : Type) where
  | mk (FullName : Str) (Children : List (Entry V)) (Value : Option V)

variable {V : Type}

def Entry.FullName : Entry V → Str
  | .mk f _ _ => f

def Entry.Children : Entry V → List (Entry V)
  | .mk _ c _ => c

def Entry.Value : Entry V → Option V
  | .mk _ _ v => v

/-- The zero `Entry`, which a Go map read returns for an absent key. -/
def zeroEntry (V : Type) : Entry V := .mk [] [] none

/-- The `Tree`'s `index` map, modelled as an association list where the
most recent binding for a key shadows older ones. -/
def Tree (V : Type) : Type := List (Str × Entry V)

/-- `tree.index[k]` together with the `ok` flag: `some e` iff the key is present. -/
def idxGet (t : Tree V) (k : Str) : Option (Entry V) :=
  (t.find? (fun p => p.1 == k)).map (·.2)

/-- A Go map read without the `ok` flag: the zero `Entry` when absent. -/
def idxGetD (t : Tree V) (k : Str) : Entry V := (idxGet t k).getD (zeroEntry V)

/-- `tree.index[k] = e`. -/
def idxPut (t : Tree V) (k : Str) (e : Entry V) : Tree V := (k, e) :: t

/-- The ancestor loop of `Tree.Put`: for each ancestor key (the split dir with
its trailing slash dropped) append the previous entry to its children list. -/
def putLoop (t : Tree V) (lastPath dir : Str) : Tree V :=
  if dir = [] then t
  else
    let d := dir.dropLast
    let child := idxGetD t lastPath
    let parent := idxGetD t d
    putLoop (idxPut t d (.mk d (parent.Children ++ [child]) parent.Value)) d (splitDir d)
termination_by dir.length
decreasing_by
  have h1 := splitDir_length_le (dir.dropLast)
  have h2 : dir.length ≠ 0 := by
    intro h
    exact (by assumption : ¬dir = []) (List.eq_nil_of_length_eq_zero h)
  simp only [List.length_dropLast] at h1 ⊢
  omega

/-- `Tree.Put` from filetree.go. -/
def Put (t : Tree V) (name : Str) (value : Option V) : Tree V :=
  let n := normalize name
  putLoop (idxPut t n (.mk n [] value)) n (splitDir n)

/-- `Tree.Get` from filetree.go. -/
def Get (t : Tree V) (name : Str) : Option (Entry V) := idxGet t (normalize name)

/-- The candidate loop of `Tree.LongestPrefix`: test `dir.dropLast`, then
continue from `splitDir dir.dropLast`. -/
def lpLoop (t : Tree V) (dir : Str) : Option (Entry V) :=
  if dir = [] then none
  else
    match idxGet t dir.dropLast with
    | some e => some e
    | none => lpLoop t (splitDir dir.dropLast)
termination_by dir.length
decreasing_by
  have h1 := splitDir_length_le (dir.dropLast)
  have h2 : dir.length ≠ 0 := by
    intro h
    exact (by assumption : ¬dir = []) (List.eq_nil_of_length_eq_zero h)
  simp only [List.length_dropLast] at h1 ⊢
  omega

/-- `Tree.LongestPrefix` from filetree.go. -/
def LongestPrefix (t : Tree V) (name : Str) : Option (Entry V) :=
  lpLoop t (normalize name)

/-- `New` from filetree.go: the empty index. -/
def New (V : Type) : Tree V := []

/-- A tree built by a sequence of `Put` calls starting from `New`. -/
def buildTree (ops : List (Str × V)) : Tree V :=
  ops.foldl (fun t op => Put t op.1 (some op.2)) (New V)

/-- `os.ModeDir`: bit 31 of a Go `FileMode`. -/
def ModeDir : Nat := 2 ^ 31

/-- `Entry.Size`: `512 * int64(len(e.Children))`. -/
def Entry.size (e : Entry V) : Int := 512 * e.Children.length

/-- `Entry.Mode`: `os.ModeDir | 0555` for entries with children, else `0444`. -/
def Entry.mode (e : Entry V) : Nat :=
  if 0 < e.Children.length then ModeDir ||| 0o555 else 0o444

/-- `os.FileMode.IsDir`: `m & ModeDir != 0`. -/
def modeIsDir (m : Nat) : Bool := m &&& ModeDir != 0

/-- `Entry.IsDir`: `e.Mode().IsDir()`. -/
def Entry.isDir (e : Entry V) : Bool := modeIsDir e.mode

/-- The sequence of keys visited by the loops of `Put` and `LongestPrefix`
when the loop variable starts at `dir`: strip the trailing character, then
continue from the split dir of the result. -/
def walkKeys (dir : Str) : List Str :=
  if dir = [] then [] else dir.dropLast :: walkKeys (splitDir dir.dropLast)
termination_by dir.length
decreasing_by
  have h1 := splitDir_length_le (dir.dropLast)
  have h2 : dir.length ≠ 0 := by
    intro h
    exact (by assumption : ¬dir = []) (List.eq_nil_of_length_eq_zero h)
  simp only [List.length_dropLast] at h1 ⊢
  omega

theorem walkKeys_length {dir k : Str} (h : k ∈ walkKeys dir) : k.length < dir.length := by
  generalize hl : dir.length = n
  induction n using Nat.strong_induction_on generalizing dir k with
  | _ n ih =>
    subst hl
    rw [walkKeys] at h
    by_cases hd : dir = []
    · simp [hd] at h
    · rw [if_neg hd] at h
      have hlen : dir.length ≠ 0 := fun h0 => hd (List.eq_nil_of_length_eq_zero h0)
      rcases List.mem_cons.mp h with h1 | h1
      · subst h1
        simp only [List.length_dropLast]
        omega
      · have hsd := splitDir_length_le dir.dropLast
        simp only [List.length_dropLast] at hsd
        have := ih (splitDir dir.dropLast).length (by omega) h1 rfl
        omega

theorem splitDir_head {s : Str} (hne : s ≠ []) (hh : s.head? = some '/') :
    (splitDir s).head? = some '/' := by
  match s, hne with
  | c :: rest, _ =>
    simp only [List.head?_cons, Option.some_inj] at hh
    subst hh
    rw [splitDir]
    by_cases h : '/' ∈ rest <;> simp [h]

theorem splitDir_ne_nil {s : Str} (hh : s.head? = some '/') : splitDir s ≠ [] := by
  match s with
  | c :: rest =>
    simp only [List.head?_cons, Option.some_inj] at hh
    subst hh
    rw [splitDir]
    by_cases h : '/' ∈ rest <;> simp [h]

theorem nil_mem_walkKeys {dir : Str} (hh : dir.head? = some '/') : [] ∈ walkKeys dir := by
  generalize hl : dir.length = n
  induction n using Nat.strong_induction_on generalizing dir with
  | _ n ih =>
    subst hl
    match dir, hh with
    | c :: rest, hh =>
      simp only [List.head?_cons, Option.some_inj] at hh
      subst hh
      rw [walkKeys, if_neg (by simp)]
      by_cases hr : rest = []
      · subst hr
        exact List.mem_cons_self _ _
      · have hdl : ('/' :: rest).dropLast = '/' :: rest.dropLast := by
          simp [List.dropLast_cons_of_ne_nil hr]
        apply List.mem_cons_of_mem
        have hhead : (splitDir (('/' :: rest).dropLast)).head? = some '/' := by
          rw [hdl]; exact splitDir_head (by simp) (by simp)
        have hlen : (splitDir (('/' :: rest).dropLast)).length < ('/' :: rest).length := by
          have h1 := splitDir_length_le (('/' :: rest).dropLast)
          simp only [List.length_dropLast, List.length_cons] at h1 ⊢
          omega
        exact ih _ hlen hhead rfl

theorem idxGet_idxPut_self (t : Tree V) (k : Str) (e : Entry V) :
    idxGet (idxPut t k e) k = some e := by
  simp [idxGet, idxPut, List.find?_cons_of_pos]

theorem idxGet_idxPut_ne (t : Tree V) {k k' : Str} (e : Entry V) (h : k' ≠ k) :
    idxGet (idxPut t k e) k' = idxGet t k' := by
  simp only [idxGet, idxPut]
  rw [List.find?_cons_of_neg]
  simp [Ne.symm h]

theorem idxGetD_congr {t t' : Tree V} {k : Str} (h : idxGet t' k = idxGet t k) :
    idxGetD t' k = idxGetD t k := by
  simp [idxGetD, h]

theorem findSome?_cons {α β : Type} (f : α → Option β) (a : α) (l : List α) :
    (a :: l).findSome? f = match f a with | some b => some b | none => l.findSome? f := rfl

/-- Keys outside the walk are untouched by the ancestor loop of `Put`. -/
theorem putLoop_frame {t : Tree V} {l dir k : Str} (h : k ∉ walkKeys dir) :
    idxGet (putLoop t l dir) k = idxGet t k := by
  generalize hl : dir.length = n
  induction n using Nat.strong_induction_on generalizing t l dir with
  | _ n ih =>
    subst hl
    rw [putLoop]
    by_cases hd : dir = []
    · rw [if_pos hd]
    · rw [if_neg hd]
      rw [walkKeys, if_neg hd] at h
      have hk1 : k ≠ dir.dropLast := fun he => h (he ▸ List.mem_cons_self _ _)
      have hk2 : k ∉ walkKeys (splitDir dir.dropLast) := fun hm => h (List.mem_cons_of_mem _ hm)
      have hlen : (splitDir dir.dropLast).length < dir.length := by
        have h1 := splitDir_length_le dir.dropLast
        have h2 : dir.length ≠ 0 := fun h0 => hd (List.eq_nil_of_length_eq_zero h0)
        simp only [List.length_dropLast] at h1
        omega
      rw [ih _ hlen hk2 rfl]
      exact idxGet_idxPut_ne _ _ hk1

/-- Every key on the walk ends up present, with `FullName` equal to the key,
the previous children list extended by exactly one child, and the previous
value (so `none` for a key that was absent). -/
theorem putLoop_mem {t : Tree V} {l dir k : Str} (h : k ∈ walkKeys dir) :
    ∃ c, idxGet (putLoop t l dir) k =
      some (.mk k ((idxGetD t k).Children ++ [c]) (idxGetD t k).Value) := by
  generalize hl : dir.length = n
  induction n using Nat.strong_induction_on generalizing t l dir with
  | _ n ih =>
    subst hl
    by_cases hd : dir = []
    · rw [hd, walkKeys] at h
      simp at h
    · rw [putLoop, if_neg hd]
      rw [walkKeys, if_neg hd] at h
      have hlen : (splitDir dir.dropLast).length < dir.length := by
        have h1 := splitDir_length_le dir.dropLast
        have h2 : dir.length ≠ 0 := fun h0 => hd (List.eq_nil_of_length_eq_zero h0)
        simp only [List.length_dropLast] at h1
        omega
      rcases List.mem_cons.mp h with h1 | h1
      · subst h1
        have hout : dir.dropLast ∉ walkKeys (splitDir dir.dropLast) := by
          intro hm
          have := walkKeys_length hm
          have := splitDir_length_le dir.dropLast
          omega
        refine ⟨idxGetD t l, ?_⟩
        rw [putLoop_frame hout, idxGet_idxPut_self]
      · have hne : k ≠ dir.dropLast := by
          intro he
          have := walkKeys_length h1
          have := splitDir_length_le dir.dropLast
          subst he
          omega
        rcases ih _ hlen h1 rfl (t := idxPut t dir.dropLast
          (.mk dir.dropLast ((idxGetD t dir.dropLast).Children ++ [idxGetD t l])
            (idxGetD t dir.dropLast).Value)) (l := dir.dropLast) with ⟨c, hc⟩
        refine ⟨c, ?_⟩
        rw [hc, idxGetD_congr (idxGet_idxPut_ne _ _ hne)]

/-- After `Put`, the exact normalized key holds a fresh entry with the given
value and no children. -/
theorem put_get_self (t : Tree V) (p : Str) (v : Option V) :
    idxGet (Put t p v) (normalize p) = some (.mk (normalize p) [] v) := by
  rw [Put]
  have hout : normalize p ∉ walkKeys (splitDir (normalize p)) := by
    intro hm
    have := walkKeys_length hm
    have := splitDir_length_le (normalize p)
    omega
  rw [putLoop_frame hout, idxGet_idxPut_self]

/-- `lpLoop` returns the first hit along the walk. -/
theorem lpLoop_eq_findSome (t : Tree V) (dir : Str) :
    lpLoop t dir = (walkKeys dir).findSome? (fun k => idxGet t k) := by
  generalize hl : dir.length = n
  induction n using Nat.strong_induction_on generalizing dir with
  | _ n ih =>
    subst hl
    rw [lpLoop, walkKeys]
    by_cases hd : dir = []
    · rw [if_pos hd, if_pos hd]
      rfl
    · rw [if_neg hd, if_neg hd, findSome?_cons]
      have hlen : (splitDir dir.dropLast).length < dir.length := by
        have h1 := splitDir_length_le dir.dropLast
        have h2 : dir.length ≠ 0 := fun h0 => hd (List.eq_nil_of_length_eq_zero h0)
        simp only [List.length_dropLast] at h1
        omega
      cases hg : idxGet t dir.dropLast with
      | some e => rfl
      | none => exact ih _ hlen _ rfl

/-- `LongestPrefix` as a first-hit search over the walk of the normalized name. -/
theorem longestPrefix_eq_findSome (t : Tree V) (name : Str) :
    LongestPrefix t name = (walkKeys (normalize name)).findSome? (fun k => idxGet t k) :=
  lpLoop_eq_findSome t (normalize name)

theorem findSome?_isSome_of_mem {α β : Type} {f : α → Option β} {l : List α} {a : α}
    (ha : a ∈ l) (hf : (f a).isSome) : (l.findSome? f).isSome := by
  induction l with
  | nil => cases ha
  | cons x xs ih =>
    rw [findSome?_cons]
    cases hx : f x with
    | some b => simp
    | none =>
      rcases List.mem_cons.mp ha with h1 | h1
      · subst h1
        rw [hx] at hf
        simp at hf
      · exact ih h1

theorem exists_of_findSome?_eq_some {α β : Type} {f : α → Option β} {l : List α} {b : β}
    (h : l.findSome? f = some b) : ∃ a ∈ l, f a = some b := by
  induction l with
  | nil => simp [List.findSome?] at h
  | cons x xs ih =>
    rw [findSome?_cons] at h
    revert h
    cases hx : f x with
    | some c =>
      intro h
      simp only [Option.some.injEq] at h
      subst h
      exact ⟨x, List.mem_cons_self _ _, hx⟩
    | none =>
      intro h
      rcases ih h with ⟨a, ha, hfa⟩
      exact ⟨a, List.mem_cons_of_mem _ ha, hfa⟩

/-! ### Characterization of `Clean` on rooted inputs

A cleaned rooted path is `"/"` followed by slash-separated segments, each
nonempty, slash-free and different from `.` and `..`.  `render` produces that
string from a segment list, and the lemmas below show that `cleanLoop` on a
rooted input always yields such a string and fixes it. -/

/-- A segment of a cleaned rooted path. -/
def validSeg (s : Str) : Prop := s ≠ [] ∧ '/' ∉ s ∧ s ≠ ['.'] ∧ s ≠ ['.', '.']

/-- `['/'] ++ s₁ ++ ['/'] ++ s₂ ++ ...` -/
def tailRender (segs : List Str) : Str := (segs.map (fun s => '/' :: s)).flatten

/-- The rooted path with the given segments, `"/"` when there are none. -/
def render (segs : List Str) : Str := if segs = [] then ['/'] else tailRender segs

theorem tailRender_cons (s : Str) (ss : List Str) :
    tailRender (s :: ss) = '/' :: (s ++ tailRender ss) := by
  simp [tailRender]

theorem render_nil : render ([] : List Str) = ['/'] := rfl

theorem render_cons (s : Str) (ss : List Str) :
    render (s :: ss) = '/' :: (s ++ tailRender ss) := by
  rw [render, if_neg (by simp), tailRender_cons]

theorem render_head (segs : List Str) : (render segs).head? = some '/' := by
  cases segs with
  | nil => rfl
  | cons s ss => rw [render_cons]; rfl

theorem render_ne_nil (segs : List Str) : render segs ≠ [] := by
  cases segs with
  | nil => simp [render_nil]
  | cons s ss => simp [render_cons]

theorem render_length_two {segs : List Str} (hv : ∀ x ∈ segs, validSeg x)
    (hne : segs ≠ []) : 2 ≤ (render segs).length := by
  match segs, hne with
  | s :: ss, _ =>
    rw [render_cons]
    have hs : s ≠ [] := (hv s (List.mem_cons_self _ _)).1
    have : 1 ≤ s.length := by
      cases s with
      | nil => exact absurd rfl hs
      | cons a as => simp
    simp only [List.length_cons, List.length_append]
    omega

theorem render_length_one_iff {segs : List Str} (hv : ∀ x ∈ segs, validSeg x) :
    (render segs).length = 1 ↔ segs = [] := by
  constructor
  · intro h
    by_contra hne
    have := render_length_two hv hne
    omega
  · intro h
    subst h
    rfl

theorem render_append_one {segs : List Str} (hne : segs ≠ []) (s : Str) :
    render (segs ++ [s]) = render segs ++ '/' :: s := by
  rw [render, render, if_neg (by simp), if_neg hne]
  simp [tailRender]

theorem render_singleton (s : Str) : render [s] = '/' :: s := by
  rw [render_cons]
  simp [tailRender]

/-- The `..` truncation loop on the reversed buffer `l ++ '/' :: r` where `l`
is slash-free: it consumes `l` and the separating slash, leaving `r`
(or just the root slash when `r` is empty). -/
theorem popRev_spec (l : Str) (hl : ∀ x ∈ l, x ≠ '/') {c : Char} (hc : c ≠ '/') (r : Str) :
    popRev 1 (l ++ '/' :: r) c = if r = [] then ['/'] else r := by
  induction l generalizing c with
  | nil =>
    by_cases hr : r = []
    · subst hr
      simp only [List.nil_append]
      rw [popRev, if_neg (by simp)]
      simp
    · rw [if_neg hr]
      have hlen : 1 < ('/' :: r : Str).length := by
        cases r with
        | nil => exact absurd rfl hr
        | cons a as => simp
      simp only [List.nil_append]
      rw [popRev, if_pos ⟨hlen, hc⟩]
      cases r with
      | nil => exact absurd rfl hr
      | cons a as =>
        rw [popRev, if_neg (by simp)]
  | cons x l' ih =>
    have hx : x ≠ '/' := hl x (List.mem_cons_self _ _)
    have hlen : 1 < ((x :: l') ++ '/' :: r : Str).length := by
      simp only [List.cons_append, List.length_cons, List.length_append]
      omega
    rw [List.cons_append, popRev, if_pos ⟨by simpa using hlen, hc⟩]
    exact ih (fun y hy => hl y (List.mem_cons_of_mem _ hy)) hx

/-- Popping a `..` from a rendered rooted path removes the final segment. -/
theorem popBuf_render {segs : List Str} {s : Str} (hs : validSeg s) :
    popBuf 1 (render (segs ++ [s])) = render segs := by
  obtain ⟨hs1, hs2, -, -⟩ := hs
  have hsrev : s.reverse ≠ [] := by simpa using hs1
  obtain ⟨c, s', hcs⟩ : ∃ c s', s.reverse = c :: s' := by
    cases hrev : s.reverse with
    | nil => exact absurd hrev hsrev
    | cons c s' => exact ⟨c, s', rfl⟩
  have hc : c ≠ '/' := by
    have : c ∈ s.reverse := by rw [hcs]; exact List.mem_cons_self _ _
    rw [List.mem_reverse] at this
    intro he
    exact hs2 (he ▸ this)
  have hs' : ∀ x ∈ s', x ≠ '/' := by
    intro x hx
    have : x ∈ s.reverse := by rw [hcs]; exact List.mem_cons_of_mem _ hx
    rw [List.mem_reverse] at this
    intro he
    exact hs2 (he ▸ this)
  by_cases hsegs : segs = []
  · subst hsegs
    rw [List.nil_append, render_singleton]
    have hrev : ('/' :: s).reverse = c :: (s' ++ '/' :: []) := by
      rw [List.reverse_cons, hcs]
      simp
    rw [popBuf_eq hrev, popRev_spec s' hs' hc, if_pos rfl]
    simp [render_nil]
  · rw [render_append_one hsegs]
    have hrev : (render segs ++ '/' :: s).reverse = c :: (s' ++ '/' :: (render segs).reverse) := by
      rw [List.reverse_append, List.reverse_cons, hcs]
      simp
    have hrne : (render segs).reverse ≠ [] := by simpa using render_ne_nil segs
    rw [popBuf_eq hrev, popRev_spec s' hs' hc, if_neg hrne]
    simp

/-! ### Step lemmas for `cleanLoop` on rooted input -/

theorem cleanLoop_nil (rooted : Bool) (out : Str) (dotdot : Nat) :
    cleanLoop rooted [] out dotdot = out := by
  rw [cleanLoop]

theorem cleanLoop_slash (rooted : Bool) (r : Str) (out : Str) (dotdot : Nat) :
    cleanLoop rooted ('/' :: r) out dotdot = cleanLoop rooted r out dotdot := by
  rw [cleanLoop, if_pos rfl]

theorem cleanLoop_dot (rooted : Bool) (r : Str) (out : Str) (dotdot : Nat)
    (h : r = [] ∨ r.head? = some '/') :
    cleanLoop rooted ('.' :: r) out dotdot = cleanLoop rooted r out dotdot := by
  rw [cleanLoop, if_neg (by simp), if_pos ⟨rfl, h⟩]

theorem cleanLoop_dotdot_true (r : Str) (out : Str) (dotdot : Nat)
    (h2 : r.head? = some '.') (h3 : r.tail = [] ∨ r.tail.head? = some '/') :
    cleanLoop true ('.' :: r) out dotdot =
      if dotdot < out.length then cleanLoop true r.tail (popBuf dotdot out) dotdot
      else cleanLoop true r.tail out dotdot := by
  have hg2 : ¬('.' = '/' ∨ False) := by simp
  rw [cleanLoop, if_neg (by simp)]
  rw [if_neg ?g2, if_pos ⟨rfl, h2, h3⟩]
  case g2 =>
    rintro ⟨-, hr⟩
    rcases hr with hr | hr
    · rw [hr] at h2
      simp at h2
    · rw [hr] at h2
      simp at h2
  by_cases h : dotdot < out.length
  · rw [if_pos h, if_pos h]
  · rw [if_neg h, if_neg h, if_pos rfl]

theorem cleanLoop_default (c : Char) (rt : Str) (out : Str) (dotdot : Nat)
    (g1 : ¬c = '/') (g2 : ¬(c = '.' ∧ (rt = [] ∨ rt.head? = some '/')))
    (g3 : ¬(c = '.' ∧ rt.head? = some '.' ∧ (rt.tail = [] ∨ rt.tail.head? = some '/'))) :
    cleanLoop true (c :: rt) out dotdot =
      cleanLoop true (rt.dropWhile (· ≠ '/'))
        ((if out.length ≠ 1 then out ++ ['/'] else out) ++ c :: rt.takeWhile (· ≠ '/'))
        dotdot := by
  rw [cleanLoop, if_neg g1, if_neg g2, if_neg g3]
  simp

theorem takeWhile_append_stop {p : Char → Bool} {a r : Str} (ha : ∀ x ∈ a, p x = true)
    (hr : r = [] ∨ ∃ y ys, r = y :: ys ∧ p y = false) :
    (a ++ r).takeWhile p = a ∧ (a ++ r).dropWhile p = r := by
  induction a with
  | nil =>
    rcases hr with hr | ⟨y, ys, hys, hpy⟩
    · simp [hr]
    · simp [hys, List.takeWhile_cons, List.dropWhile_cons, hpy]
  | cons x a' ih =>
    have hx : p x = true := ha x (List.mem_cons_self _ _)
    have := ih (fun z hz => ha z (List.mem_cons_of_mem _ hz))
    simp only [List.cons_append, List.takeWhile_cons, List.dropWhile_cons, hx]
    simp [this.1, this.2]

theorem takeWhile_eq_nil_cases {p : Char → Bool} {r : Str} (h : r.takeWhile p = []) :
    r = [] ∨ ∃ y ys, r = y :: ys ∧ p y = false := by
  cases r with
  | nil => exact Or.inl rfl
  | cons y ys =>
    right
    refine ⟨y, ys, rfl, ?_⟩
    by_contra hpy
    rw [List.takeWhile_cons, if_pos (by revert hpy; cases p y <;> simp)] at h
    exact List.cons_ne_nil _ _ h

theorem takeWhile_eq_cons_cases {p : Char → Bool} {r : Str} {y : Char} {l : Str}
    (h : r.takeWhile p = y :: l) :
    ∃ ys, r = y :: ys ∧ p y = true ∧ ys.takeWhile p = l := by
  cases r with
  | nil => simp at h
  | cons z zs =>
    rw [List.takeWhile_cons] at h
    by_cases hpz : p z = true
    · rw [if_pos hpz] at h
      injection h with h1 h2
      subst h1
      exact ⟨zs, rfl, hpz, h2⟩
    · rw [if_neg (by simp [hpz])] at h
      exact absurd h.symm (List.cons_ne_nil _ _)

/-- Appending the next segment to the output buffer, as the real-element case
of `cleanLoop` does for rooted input. -/
theorem render_snoc {acc : List Str} (hacc : ∀ x ∈ acc, validSeg x) (s : Str) :
    (if (render acc).length ≠ 1 then render acc ++ ['/'] else render acc) ++ s
      = render (acc ++ [s]) := by
  by_cases ha : acc = []
  · subst ha
    rw [if_neg (by simp [render_nil])]
    rw [List.nil_append, render_singleton, render_nil]
    rfl
  · rw [if_pos (by rw [Ne, render_length_one_iff hacc]; exact ha)]
    rw [render_append_one ha]
    simp

/-- On rooted input, `cleanLoop` starting from a rendered buffer always
produces a rendered buffer of valid segments. -/
theorem cleanLoop_rooted_render (rest : Str) (acc : List Str)
    (hacc : ∀ x ∈ acc, validSeg x) :
    ∃ segs, (∀ x ∈ segs, validSeg x) ∧ cleanLoop true rest (render acc) 1 = render segs := by
  generalize hl : rest.length = n
  induction n using Nat.strong_induction_on generalizing rest acc with
  | _ n ih =>
    subst hl
    cases rest with
    | nil => exact ⟨acc, hacc, cleanLoop_nil ..⟩
    | cons c r =>
      by_cases hc1 : c = '/'
      · subst hc1
        rw [cleanLoop_slash]
        exact ih _ (by simp) _ acc hacc rfl
      · by_cases hc2 : c = '.' ∧ (r = [] ∨ r.head? = some '/')
        · obtain ⟨hc, hr⟩ := hc2
          subst hc
          rw [cleanLoop_dot _ _ _ _ hr]
          exact ih _ (by simp) _ acc hacc rfl
        · by_cases hc3 : c = '.' ∧ r.head? = some '.' ∧ (r.tail = [] ∨ r.tail.head? = some '/')
          · obtain ⟨hc, h2, h3⟩ := hc3
            subst hc
            rw [cleanLoop_dotdot_true _ _ _ h2 h3]
            have htl : r.tail.length < ('.' :: r).length := by
              simp only [List.length_tail, List.length_cons]
              omega
            by_cases hlt : 1 < (render acc).length
            · rw [if_pos hlt]
              have hacc_ne : acc ≠ [] := by
                intro h
                subst h
                simp [render_nil] at hlt
              have hvlast : validSeg (acc.getLast hacc_ne) :=
                hacc _ (List.getLast_mem hacc_ne)
              have hpop : popBuf 1 (render acc) = render acc.dropLast := by
                conv_lhs => rw [← List.dropLast_append_getLast hacc_ne]
                exact popBuf_render hvlast
              rw [hpop]
              exact ih _ htl r.tail acc.dropLast
                (fun x hx => hacc x (List.dropLast_subset _ hx)) rfl
            · rw [if_neg hlt]
              exact ih _ htl r.tail acc hacc rfl
          · rw [cleanLoop_default c r (render acc) 1 hc1 hc2 hc3]
            have hseg : validSeg (c :: r.takeWhile (· ≠ '/')) := by
              refine ⟨by simp, ?_, ?_, ?_⟩
              · intro hmem
                rcases List.mem_cons.mp hmem with h | h
                · exact hc1 h.symm
                · have := List.mem_takeWhile_imp h
                  simp at this
              · intro he
                injection he with he1 he2
                subst he1
                rcases takeWhile_eq_nil_cases he2 with hr | ⟨y, ys, hys, hpy⟩
                · exact hc2 ⟨rfl, Or.inl hr⟩
                · have hy : y = '/' := by
                    revert hpy
                    simp
                  exact hc2 ⟨rfl, Or.inr (by rw [hys, hy]; rfl)⟩
              · intro he
                injection he with he1 he2
                subst he1
                obtain ⟨ys, hys, hpy, htw⟩ := takeWhile_eq_cons_cases he2
                rcases takeWhile_eq_nil_cases htw with hr | ⟨z, zs, hzs, hpz⟩
                · exact hc3 ⟨rfl, by rw [hys]; rfl, Or.inl (by rw [hys, hr]; rfl)⟩
                · have hz : z = '/' := by
                    revert hpz
                    simp
                  refine hc3 ⟨rfl, by rw [hys]; rfl, Or.inr ?_⟩
                  rw [hys, hzs, hz]
                  rfl
            rw [render_snoc hacc (c :: r.takeWhile (· ≠ '/'))]
            have hdw : (r.dropWhile (· ≠ '/')).length < (c :: r).length := by
              have := length_dropWhile_le (fun x => decide (x ≠ '/')) r
              simp only [List.length_cons]
              omega
            refine ih _ hdw _ (acc ++ [c :: r.takeWhile (· ≠ '/')]) ?_ rfl
            intro x hx
            rcases List.mem_append.mp hx with h | h
            · exact hacc x h
            · rw [List.mem_singleton] at h
              subst h
              exact hseg

/-- Processing one whole valid segment of the input appends it to the buffer. -/
theorem cleanLoop_consume_seg {s : Str} (hs : validSeg s) {acc : List Str}
    (hacc : ∀ x ∈ acc, validSeg x) {r : Str} (hr : r = [] ∨ r.head? = some '/') :
    cleanLoop true (s ++ r) (render acc) 1 = cleanLoop true r (render (acc ++ [s])) 1 := by
  obtain ⟨hs1, hs2, hs3, hs4⟩ := hs
  obtain ⟨c, st, rfl⟩ : ∃ c st, s = c :: st := by
    cases s with
    | nil => exact absurd rfl hs1
    | cons c st => exact ⟨c, st, rfl⟩
  have hcne : c ≠ '/' := fun h => hs2 (h ▸ List.mem_cons_self _ _)
  have hstne : ∀ x ∈ st, x ≠ '/' := fun x hx h => hs2 (h ▸ List.mem_cons_of_mem _ hx)
  have g2 : ¬(c = '.' ∧ (st ++ r = [] ∨ (st ++ r).head? = some '/')) := by
    rintro ⟨hc, hor⟩
    subst hc
    cases st with
    | nil => exact hs3 rfl
    | cons y ys =>
      have hy : y ≠ '/' := hstne y (List.mem_cons_self _ _)
      rcases hor with h | h
      · simp at h
      · simp only [List.cons_append, List.head?_cons, Option.some_inj] at h
        exact hy h
  have g3 : ¬(c = '.' ∧ (st ++ r).head? = some '.' ∧
      ((st ++ r).tail = [] ∨ (st ++ r).tail.head? = some '/')) := by
    rintro ⟨hc, hh, hor⟩
    subst hc
    cases st with
    | nil => exact hs3 rfl
    | cons y ys =>
      simp only [List.cons_append, List.head?_cons, Option.some_inj] at hh
      subst hh
      cases ys with
      | nil => exact hs4 rfl
      | cons z zs =>
        have hz : z ≠ '/' := hstne z (List.mem_cons_of_mem _ (List.mem_cons_self _ _))
        simp only [List.cons_append, List.tail_cons] at hor
        rcases hor with h | h
        · simp at h
        · simp only [List.cons_append, List.head?_cons, Option.some_inj] at h
          exact hz h
  rw [show (c :: st) ++ r = c :: (st ++ r) from rfl]
  rw [cleanLoop_default c (st ++ r) (render acc) 1 hcne g2 g3]
  have hrcond : r = [] ∨ ∃ y ys, r = y :: ys ∧ (fun x => decide (x ≠ '/')) y = false := by
    rcases hr with h | h
    · exact Or.inl h
    · cases r with
      | nil => exact Or.inl rfl
      | cons y ys =>
        simp only [List.head?_cons, Option.some_inj] at h
        exact Or.inr ⟨y, ys, rfl, by simp [h]⟩
  obtain ⟨htw, hdw⟩ := takeWhile_append_stop (p := fun x => decide (x ≠ '/'))
    (a := st) (r := r) (fun x hx => by simpa using hstne x hx) hrcond
  rw [htw, hdw, render_snoc hacc (c :: st)]

theorem tailRender_head_cases (ss : List Str) :
    tailRender ss = [] ∨ (tailRender ss).head? = some '/' := by
  cases ss with
  | nil => exact Or.inl (by simp [tailRender])
  | cons a as => exact Or.inr (by rw [tailRender_cons]; rfl)

/-- A rendered list of valid segments is consumed segment by segment. -/
theorem cleanLoop_tailRender (segs : List Str) (hsegs : ∀ x ∈ segs, validSeg x)
    (acc : List Str) (hacc : ∀ x ∈ acc, validSeg x) :
    cleanLoop true (tailRender segs) (render acc) 1 = render (acc ++ segs) := by
  induction segs generalizing acc with
  | nil =>
    rw [show tailRender [] = [] from rfl, cleanLoop_nil, List.append_nil]
  | cons s ss ih =>
    have hacc' : ∀ x ∈ acc ++ [s], validSeg x := by
      intro x hx
      rcases List.mem_append.mp hx with h | h
      · exact hacc x h
      · rw [List.mem_singleton] at h
        rw [h]
        exact hsegs s (List.mem_cons_self _ _)
    rw [tailRender_cons, cleanLoop_slash]
    rw [cleanLoop_consume_seg (hsegs s (List.mem_cons_self _ _)) hacc (tailRender_head_cases ss)]
    rw [ih (fun x hx => hsegs x (List.mem_cons_of_mem _ hx)) (acc ++ [s]) hacc']
    simp

/-- `Clean` on a rooted input, with the boilerplate of the wrapper unfolded. -/
theorem Clean_rooted_eq (s : Str) :
    Clean ('/' :: s) =
      (if cleanLoop true s ['/'] 1 = [] then ['.'] else cleanLoop true s ['/'] 1) := by
  simp [Clean]

/-- `Clean` of a rooted path is a rendered list of valid segments. -/
theorem Clean_rooted (s : Str) :
    ∃ segs, (∀ x ∈ segs, validSeg x) ∧ Clean ('/' :: s) = render segs := by
  obtain ⟨segs, hv, he⟩ := cleanLoop_rooted_render s [] (by simp)
  have he' : cleanLoop true s ['/'] 1 = render segs := by
    rw [← render_nil]
    exact he
  exact ⟨segs, hv, by rw [Clean_rooted_eq, he', if_neg (render_ne_nil segs)]⟩

theorem normalize_render (s : Str) :
    ∃ segs, (∀ x ∈ segs, validSeg x) ∧ normalize s = render segs := Clean_rooted s

theorem normalize_head (s : Str) : (normalize s).head? = some '/' := by
  obtain ⟨segs, -, he⟩ := normalize_render s
  rw [he]
  exact render_head segs

theorem normalize_ne_nil (s : Str) : normalize s ≠ [] := by
  obtain ⟨segs, -, he⟩ := normalize_render s
  rw [he]
  exact render_ne_nil segs

/-- A doubled leading slash is harmless: `Clean ("//" ++ ...) = Clean ("/" ++ ...)`. -/
theorem Clean_slash_rooted {q : Str} (hq : q.head? = some '/') :
    Clean ('/' :: q) = Clean q := by
  obtain ⟨qt, rfl⟩ : ∃ qt, q = '/' :: qt := by
    cases q with
    | nil => simp at hq
    | cons a as =>
      simp only [List.head?_cons, Option.some_inj] at hq
      exact ⟨as, by rw [hq]⟩
  rw [Clean_rooted_eq, Clean_rooted_eq, cleanLoop_slash]

/-- `Clean` fixes every rendered list of valid segments. -/
theorem Clean_render {segs : List Str} (hv : ∀ x ∈ segs, validSeg x) :
    Clean (render segs) = render segs := by
  cases segs with
  | nil =>
    rw [render_nil, show (['/'] : Str) = '/' :: [] from rfl, Clean_rooted_eq, cleanLoop_nil]
    simp
  | cons s ss =>
    have hvs : ∀ x ∈ [s], validSeg x := by
      intro x hx
      rw [List.mem_singleton] at hx
      rw [hx]
      exact hv s (List.mem_cons_self _ _)
    have h1 : cleanLoop true (s ++ tailRender ss) ['/'] 1 = render (s :: ss) := by
      rw [show (['/'] : Str) = render [] from rfl]
      rw [cleanLoop_consume_seg (hv s (List.mem_cons_self _ _)) (by simp)
        (tailRender_head_cases ss)]
      rw [List.nil_append]
      rw [cleanLoop_tailRender ss (fun x hx => hv x (List.mem_cons_of_mem _ hx)) [s] hvs]
      rfl
    conv_lhs => rw [render_cons]
    rw [Clean_rooted_eq, h1, if_neg (render_ne_nil _)]

/-- Normalization is idempotent. -/
theorem normalize_idem (s : Str) : normalize (normalize s) = normalize s := by
  obtain ⟨segs, hv, he⟩ := normalize_render s
  rw [he]
  show Clean ('/' :: render segs) = render segs
  rw [Clean_slash_rooted (render_head segs), Clean_render hv]

/-! ### Invariants of trees built by `Put` -/

/-- Every stored entry records its own key as `FullName`. -/
def NamesInv (t : Tree V) : Prop := ∀ k e, idxGet t k = some e → e.FullName = k

theorem namesInv_new : NamesInv (New V) := by
  intro k e h
  simp [New, idxGet] at h

theorem namesInv_put {t : Tree V} (h : NamesInv t) (p : Str) (v : Option V) :
    NamesInv (Put t p v) := by
  intro k e hk
  by_cases hm : k ∈ walkKeys (splitDir (normalize p))
  · obtain ⟨c, hc⟩ := putLoop_mem
      (t := idxPut t (normalize p) (.mk (normalize p) [] v)) (l := normalize p) hm
    simp only [Put] at hk
    rw [hc] at hk
    injection hk with hk'
    rw [← hk']
    rfl
  · simp only [Put] at hk
    rw [putLoop_frame hm] at hk
    by_cases hn : k = normalize p
    · subst hn
      rw [idxGet_idxPut_self] at hk
      injection hk with hk'
      rw [← hk']
      rfl
    · rw [idxGet_idxPut_ne _ _ hn] at hk
      exact h k e hk

theorem namesInv_buildTree (ops : List (Str × V)) : NamesInv (buildTree ops) := by
  rw [buildTree]
  induction ops using List.reverseRecOn with
  | nil => exact namesInv_new
  | append_singleton ops op ih =>
    rw [List.foldl_append, List.foldl_cons, List.foldl_nil]
    exact namesInv_put ih _ _

/-- What `Put` can do to the value stored at a key: set it at the target key,
keep the previous value, or write `none` into a freshly synthesized ancestor. -/
theorem put_value {t : Tree V} {p : Str} {v : Option V} {k : Str} {e : Entry V}
    (hk : idxGet (Put t p v) k = some e) :
    (k = normalize p ∧ e.Value = v) ∨
      (∃ e0, idxGet t k = some e0 ∧ e.Value = e0.Value) ∨ e.Value = none := by
  by_cases hm : k ∈ walkKeys (splitDir (normalize p))
  · have hne : k ≠ normalize p := by
      intro he
      have := walkKeys_length hm
      have := splitDir_length_le (normalize p)
      subst he
      omega
    obtain ⟨c, hc⟩ := putLoop_mem
      (t := idxPut t (normalize p) (.mk (normalize p) [] v)) (l := normalize p) hm
    simp only [Put] at hk
    rw [hc] at hk
    injection hk with hk'
    have hgd : idxGetD (idxPut t (normalize p) (.mk (normalize p) [] v)) k = idxGetD t k :=
      idxGetD_congr (idxGet_idxPut_ne _ _ hne)
    rw [hgd] at hk'
    cases hg : idxGet t k with
    | some e0 =>
      right; left
      refine ⟨e0, rfl, ?_⟩
      rw [← hk']
      simp [idxGetD, hg, Entry.Value]
    | none =>
      right; right
      rw [← hk']
      simp [idxGetD, hg, zeroEntry, Entry.Value]
  · simp only [Put] at hk
    rw [putLoop_frame hm] at hk
    by_cases hn : k = normalize p
    · subst hn
      rw [idxGet_idxPut_self] at hk
      injection hk with hk'
      left
      exact ⟨rfl, by rw [← hk']; rfl⟩
    · rw [idxGet_idxPut_ne _ _ hn] at hk
      exact Or.inr (Or.inl ⟨e, hk, rfl⟩)

/-- `Put` never removes a key. -/
theorem put_presence {t : Tree V} {k : Str} (h : (idxGet t k).isSome) (p : Str) (v : Option V) :
    (idxGet (Put t p v) k).isSome := by
  by_cases hm : k ∈ walkKeys (splitDir (normalize p))
  · obtain ⟨c, hc⟩ := putLoop_mem
      (t := idxPut t (normalize p) (.mk (normalize p) [] v)) (l := normalize p) hm
    simp only [Put]
    rw [hc]
    rfl
  · simp only [Put]
    rw [putLoop_frame hm]
    by_cases hn : k = normalize p
    · subst hn
      rw [idxGet_idxPut_self]
      rfl
    · rw [idxGet_idxPut_ne _ _ hn]
      exact h

/-- After `Put`, every key on the ancestor walk is present. -/
theorem put_ancestor_present {t : Tree V} {k : Str} (p : Str) (v : Option V)
    (hm : k ∈ walkKeys (splitDir (normalize p))) :
    (idxGet (Put t p v) k).isSome := by
  obtain ⟨c, hc⟩ := putLoop_mem
    (t := idxPut t (normalize p) (.mk (normalize p) [] v)) (l := normalize p) hm
  simp only [Put]
  rw [hc]
  rfl

/-- The first iteration of the ancestor loop: the parent key of the inserted
path receives a snapshot of the freshly inserted child, appended to whatever
children it already had, keeping its previous value. -/
theorem put_parent (t : Tree V) (p : Str) (v : Option V) :
    idxGet (Put t p v) ((splitDir (normalize p)).dropLast) =
      some (.mk ((splitDir (normalize p)).dropLast)
        ((idxGetD t ((splitDir (normalize p)).dropLast)).Children ++ [.mk (normalize p) [] v])
        (idxGetD t ((splitDir (normalize p)).dropLast)).Value) := by
  have hsd : splitDir (normalize p) ≠ [] := splitDir_ne_nil (normalize_head p)
  have hlen0 : (normalize p).length ≠ 0 := by
    have := normalize_ne_nil p
    intro h0
    exact this (List.eq_nil_of_length_eq_zero h0)
  have hpk_lt : ((splitDir (normalize p)).dropLast).length < (normalize p).length := by
    have h1 := splitDir_length_le (normalize p)
    have h2 : (splitDir (normalize p)).length ≠ 0 := by
      intro h0
      exact hsd (List.eq_nil_of_length_eq_zero h0)
    simp only [List.length_dropLast]
    omega
  have hpk_ne : (splitDir (normalize p)).dropLast ≠ normalize p := by
    intro he
    rw [he] at hpk_lt
    omega
  have hout : (splitDir (normalize p)).dropLast ∉
      walkKeys (splitDir ((splitDir (normalize p)).dropLast)) := by
    intro hm
    have := walkKeys_length hm
    have := splitDir_length_le ((splitDir (normalize p)).dropLast)
    omega
  have h1 : idxGetD (idxPut t (normalize p) (.mk (normalize p) [] v)) (normalize p)
      = .mk (normalize p) [] v := by
    simp [idxGetD, idxGet_idxPut_self]
  have h2 : idxGetD (idxPut t (normalize p) (.mk (normalize p) [] v))
      ((splitDir (normalize p)).dropLast) = idxGetD t ((splitDir (normalize p)).dropLast) :=
    idxGetD_congr (idxGet_idxPut_ne _ _ hpk_ne)
  simp only [Put]
  rw [putLoop, if_neg hsd]
  simp only [putLoop_frame hout, idxGet_idxPut_self, h1, h2]

/-! ### Claim theorems -/

/-- C8: for every input string `p`, `normalize (normalize p) = normalize p`
(idempotence), and normalization is total: every input is mapped to a
normalized absolute path (in particular one starting with `'/'`). -/
theorem C8_normalize_idempotent (p : Str) :
    normalize (normalize p) = normalize p ∧ (normalize p).head? = some '/' :=
  ⟨normalize_idem p, normalize_head p⟩

/-- C9: `IsDir e` holds iff `e` has children, `size e = 512 * |children|`,
and `mode e` is `ModeDir ||| 0o555` when `e` has children, else `0o444`. -/
theorem C9_metadata (e : Entry V) :
    (e.isDir = true ↔ e.Children ≠ []) ∧
    e.size = 512 * e.Children.length ∧
    (e.Children ≠ [] → e.mode = ModeDir ||| 0o555) ∧
    (e.Children = [] → e.mode = 0o444) := by
  have hdir : modeIsDir (ModeDir ||| 0o555) = true := by decide
  have hfile : modeIsDir 0o444 = false := by decide
  cases e with
  | mk f ch v =>
    cases ch with
    | nil =>
      refine ⟨?_, ?_, ?_, ?_⟩
      · simp [Entry.isDir, Entry.mode, Entry.Children, hfile]
      · simp [Entry.size, Entry.Children]
      · simp [Entry.Children]
      · intro h
        simp [Entry.mode, Entry.Children]
    | cons a as =>
      refine ⟨?_, ?_, ?_, ?_⟩
      · simp [Entry.isDir, Entry.mode, Entry.Children, hdir]
      · simp [Entry.size, Entry.Children]
      · intro h
        simp [Entry.mode, Entry.Children]
      · simp [Entry.Children]

/-- C4: immediately after `Put t p v`, `Get p` returns the entry with value
`v` (and empty children), and any `q` normalizing like `p` retrieves the very
same entry, key equality being decided by `normalize` alone. -/
theorem C4_put_get (t : Tree V) (p : Str) (v : Option V) :
    Get (Put t p v) p = some (.mk (normalize p) [] v) ∧
    ∀ q : Str, normalize q = normalize p → Get (Put t p v) q = Get (Put t p v) p := by
  constructor
  · exact put_get_self t p v
  · intro q hq
    show idxGet _ (normalize q) = idxGet _ (normalize p)
    rw [hq]

/-- C5: putting `p` twice leaves `Get p` at the second value while the
parent's children list has gained two child entries for `p`, one per `Put`,
in insertion order — duplicates are kept, not deduplicated. -/
theorem C5_duplicate_children (t : Tree V) (p : Str) (v1 v2 : Option V) :
    Get (Put (Put t p v1) p v2) p = some (.mk (normalize p) [] v2) ∧
    idxGet (Put (Put t p v1) p v2) ((splitDir (normalize p)).dropLast) =
      some (.mk ((splitDir (normalize p)).dropLast)
        ((idxGetD t ((splitDir (normalize p)).dropLast)).Children ++
          [.mk (normalize p) [] v1, .mk (normalize p) [] v2])
        (idxGetD t ((splitDir (normalize p)).dropLast)).Value) := by
  refine ⟨put_get_self _ p v2, ?_⟩
  have hp1 := put_parent t p v1
  have hp2 := put_parent (Put t p v1) p v2
  rw [hp2]
  have hgd : idxGetD (Put t p v1) ((splitDir (normalize p)).dropLast) =
      .mk ((splitDir (normalize p)).dropLast)
        ((idxGetD t ((splitDir (normalize p)).dropLast)).Children ++ [.mk (normalize p) [] v1])
        (idxGetD t ((splitDir (normalize p)).dropLast)).Value := by
    simp [idxGetD, hp1]
  rw [hgd]
  simp [Entry.Children, Entry.Value]

/-- C6: `Put` stores at `normalize p` a fresh entry with value `v` and an
empty children list (children previously recorded there are discarded), while
every other key keeps its children list or has it extended by one child, never
reset. -/
theorem C6_put_resets_only_target (t : Tree V) (p : Str) (v : Option V) :
    idxGet (Put t p v) (normalize p) = some (.mk (normalize p) [] v) ∧
    ∀ k : Str, k ≠ normalize p →
      (idxGetD (Put t p v) k).Children = (idxGetD t k).Children ∨
      ∃ c, (idxGetD (Put t p v) k).Children = (idxGetD t k).Children ++ [c] := by
  refine ⟨put_get_self t p v, ?_⟩
  intro k hk
  by_cases hm : k ∈ walkKeys (splitDir (normalize p))
  · obtain ⟨c, hc⟩ := putLoop_mem
      (t := idxPut t (normalize p) (.mk (normalize p) [] v)) (l := normalize p) hm
    right
    refine ⟨c, ?_⟩
    have hgd : idxGetD (idxPut t (normalize p) (.mk (normalize p) [] v)) k = idxGetD t k :=
      idxGetD_congr (idxGet_idxPut_ne _ _ hk)
    have hg : idxGet (Put t p v) k =
        some (.mk k ((idxGetD t k).Children ++ [c]) (idxGetD t k).Value) := by
      simp only [Put]
      rw [hc, hgd]
    have h2 : idxGetD (Put t p v) k =
        .mk k ((idxGetD t k).Children ++ [c]) (idxGetD t k).Value := by
      rw [idxGetD, hg, Option.getD_some]
    rw [h2]
    rfl
  · have : idxGet (Put t p v) k = idxGet t k := by
      simp only [Put]
      rw [putLoop_frame hm, idxGet_idxPut_ne _ _ hk]
    left
    rw [idxGetD, idxGetD, this]

/-- C7: `Put t p v` changes only the key `normalize p` and the ancestor keys
on the walk to the root; any other key maps to the same entry as before. -/
theorem C7_put_frame (t : Tree V) (p : Str) (v : Option V) (k : Str)
    (h1 : k ≠ normalize p) (h2 : k ∉ walkKeys (splitDir (normalize p))) :
    idxGet (Put t p v) k = idxGet t k := by
  simp only [Put]
  rw [putLoop_frame h2, idxGet_idxPut_ne _ _ h1]

/-- C3: a successful `LongestPrefix` on a tree built by `Put`s never returns
an entry whose path is the normalized query itself. -/
theorem C3_no_exact_match (ops : List (Str × V)) (name : Str) (e : Entry V)
    (h : LongestPrefix (buildTree ops) name = some e) :
    e.FullName ≠ normalize name := by
  rw [longestPrefix_eq_findSome] at h
  obtain ⟨k, hk, hg⟩ := exists_of_findSome?_eq_some h
  have hlen := walkKeys_length hk
  rw [namesInv_buildTree ops k e hg]
  intro he
  rw [he] at hlen
  omega

theorem buildTree_concat (ops : List (Str × V)) (op : Str × V) :
    buildTree (ops ++ [op]) = Put (buildTree ops) op.1 (some op.2) := by
  rw [buildTree, buildTree, List.foldl_append, List.foldl_cons, List.foldl_nil]

/-- A non-`none` value can only sit at a key some `Put` targeted directly. -/
theorem valueInv_buildTree (ops : List (Str × V)) :
    ∀ k e, idxGet (buildTree ops) k = some e → e.Value ≠ none →
      k ∈ ops.map (fun op => normalize op.1) := by
  induction ops using List.reverseRecOn with
  | nil =>
    intro k e h
    simp [buildTree, New, idxGet] at h
  | append_singleton ops op ih =>
    intro k e h hv
    rw [buildTree_concat] at h
    rcases put_value h with ⟨hk, -⟩ | ⟨e0, hg, hval⟩ | hnone
    · rw [hk]
      simp only [List.map_append, List.mem_append, List.map_cons, List.map_nil,
        List.mem_singleton]
      exact Or.inr trivial
    · have := ih k e0 hg (by rw [← hval]; exact hv)
      simp only [List.map_append, List.mem_append]
      exact Or.inl this
    · exact absurd hnone hv

theorem foldl_put_presence {t : Tree V} {k : Str} (h : (idxGet t k).isSome)
    (post : List (Str × V)) :
    (idxGet (post.foldl (fun t op => Put t op.1 (some op.2)) t) k).isSome := by
  induction post generalizing t with
  | nil => exact h
  | cons op ps ih => exact ih (put_presence h op.1 (some op.2))

/-- C1 (amended): after a sequence of `Put`s among which `p` was inserted,
every path `d` normalizing to one of the ancestor keys created for `p` —
these are the strict ancestor directories of `normalize p` except the root,
which lives at the unreachable empty key — is found by `Get`, and its value
is absent unless some `Put` of the sequence targeted that exact key. -/
theorem C1_ancestors_present (pre post : List (Str × V)) (p : Str) (v : V) (d : Str)
    (hm : normalize d ∈ walkKeys (splitDir (normalize p))) :
    ∃ e, Get (buildTree (pre ++ (p, v) :: post)) d = some e ∧
      e.FullName = normalize d ∧
      (normalize d ∉ (pre ++ (p, v) :: post).map (fun op => normalize op.1) →
        e.Value = none) := by
  have hdecomp : buildTree (pre ++ (p, v) :: post) =
      post.foldl (fun t op => Put t op.1 (some op.2)) (Put (buildTree pre) p (some v)) := by
    rw [buildTree, buildTree, List.foldl_append, List.foldl_cons]
  have h0 : (idxGet (Put (buildTree pre) p (some v)) (normalize d)).isSome :=
    put_ancestor_present p (some v) hm
  have hsome : (idxGet (buildTree (pre ++ (p, v) :: post)) (normalize d)).isSome := by
    rw [hdecomp]
    exact foldl_put_presence h0 post
  obtain ⟨e, he⟩ := Option.isSome_iff_exists.mp hsome
  refine ⟨e, he, namesInv_buildTree _ _ _ he, fun hnot => ?_⟩
  by_contra hvne
  exact hnot (valueInv_buildTree _ _ _ he hvne)

/-- C2 (amended): the candidate walk of `LongestPrefix` first tests
`normalize name` with its final character removed, then the keys obtained by
repeatedly splitting off the last path segment, and returns the first index
hit (not-found when every candidate misses). -/
theorem C2_walk_characterization (t : Tree V) (name : Str) :
    LongestPrefix t name = (walkKeys (normalize name)).findSome? (fun k => idxGet t k) ∧
    walkKeys (normalize name) =
      (normalize name).dropLast :: walkKeys (splitDir ((normalize name).dropLast)) := by
  refine ⟨longestPrefix_eq_findSome t name, ?_⟩
  rw [walkKeys, if_neg (normalize_ne_nil name)]

theorem findSome?_eq_none_of_all {β : Type} {f : Str → Option β} {l : List Str}
    (h : ∀ k ∈ l, f k = none) : l.findSome? f = none := by
  induction l with
  | nil => rfl
  | cons x xs ih =>
    rw [findSome?_cons, h x (List.mem_cons_self _ _)]
    exact ih fun k hk => h k (List.mem_cons_of_mem _ hk)

/-- When every non-empty key of the list misses, the first-hit search reduces
to a lookup at the empty key (present in the list). -/
theorem findSome?_eq_at_nil {β : Type} {f : Str → Option β} {l : List Str}
    (hmiss : ∀ k ∈ l, k ≠ [] → f k = none) (hmem : ([] : Str) ∈ l) :
    l.findSome? f = f [] := by
  induction l with
  | nil => cases hmem
  | cons x xs ih =>
    rw [findSome?_cons]
    by_cases hx : x = []
    · subst hx
      cases hf : f [] with
      | some b => rfl
      | none =>
        by_cases hxs : ([] : Str) ∈ xs
        · show List.findSome? f xs = none
          rw [← hf]
          exact ih (fun k hk => hmiss k (List.mem_cons_of_mem _ hk)) hxs
        · show List.findSome? f xs = none
          refine findSome?_eq_none_of_all fun k hk => ?_
          by_cases hknil : k = []
          · rw [hknil, hf]
          · exact hmiss k (List.mem_cons_of_mem _ hk) hknil
    · rw [hmiss x (List.mem_cons_self _ _) hx]
      have hxs : ([] : Str) ∈ xs := by
        rcases List.mem_cons.mp hmem with h | h
        · exact absurd h.symm hx
        · exact h
      exact ih (fun k hk => hmiss k (List.mem_cons_of_mem _ hk)) hxs

/-- The walk of `LongestPrefix` always bottoms out at the empty key. -/
theorem walkKeys_getLast {dir : Str} (hh : dir.head? = some '/') :
    (walkKeys dir).getLast? = some [] := by
  generalize hl : dir.length = n
  induction n using Nat.strong_induction_on generalizing dir with
  | _ n ih =>
    subst hl
    match dir, hh with
    | c :: rest, hh =>
      simp only [List.head?_cons, Option.some_inj] at hh
      subst hh
      rw [walkKeys, if_neg (by simp)]
      by_cases hr : rest = []
      · subst hr
        simp [walkKeys, splitDir]
      · have hdl : ('/' :: rest).dropLast = '/' :: rest.dropLast := by
          simp [List.dropLast_cons_of_ne_nil hr]
        have hhead : (splitDir (('/' :: rest).dropLast)).head? = some '/' := by
          rw [hdl]
          exact splitDir_head (by simp) (by simp)
        have hlen : (splitDir (('/' :: rest).dropLast)).length < ('/' :: rest).length := by
          have h1 := splitDir_length_le (('/' :: rest).dropLast)
          simp only [List.length_dropLast, List.length_cons] at h1 ⊢
          omega
        have htail := ih _ hlen hhead rfl
        cases hw : walkKeys (splitDir (('/' :: rest).dropLast)) with
        | nil =>
          rw [hw] at htail
          simp at htail
        | cons y ys =>
          rw [hw] at htail
          rw [List.getLast?_cons_cons, htail]

/-- C10: every tree reached by at least one `Put` holds a synthesized root
entry under the empty key with `FullName` empty; `Get` can never address that
key because `normalize` always yields a slash-prefixed name; the candidate
walk of `LongestPrefix` ends at the empty key, so the lookup always succeeds,
and when no longer prefix of the query is registered it returns exactly the
synthesized root entry. -/
theorem C10_root_entry (ops : List (Str × V)) (hne : ops ≠ []) :
    (∃ e, idxGet (buildTree ops) [] = some e ∧ e.FullName = []) ∧
    (∀ q e, Get (buildTree ops) q = some e → e.FullName ≠ []) ∧
    (∀ name, (walkKeys (normalize name)).getLast? = some [] ∧
      (LongestPrefix (buildTree ops) name).isSome = true) ∧
    (∀ name,
      (∀ k ∈ walkKeys (normalize name), k ≠ [] → idxGet (buildTree ops) k = none) →
      ∃ e, LongestPrefix (buildTree ops) name = some e ∧
        idxGet (buildTree ops) [] = some e ∧ e.FullName = []) := by
  have hroot : (idxGet (buildTree ops) []).isSome := by
    rcases List.eq_nil_or_concat' ops with h | ⟨ops', op, h⟩
    · exact absurd h hne
    · rw [h, buildTree_concat]
      have hm : ([] : Str) ∈ walkKeys (splitDir (normalize op.1)) :=
        nil_mem_walkKeys (splitDir_head (normalize_ne_nil op.1) (normalize_head op.1))
      exact put_ancestor_present op.1 (some op.2) hm
  obtain ⟨e, he⟩ := Option.isSome_iff_exists.mp hroot
  refine ⟨⟨e, he, namesInv_buildTree _ _ _ he⟩, ?_, ?_, ?_⟩
  · intro q e' hq
    rw [namesInv_buildTree _ _ _ hq]
    exact normalize_ne_nil q
  · intro name
    refine ⟨walkKeys_getLast (normalize_head name), ?_⟩
    rw [longestPrefix_eq_findSome]
    exact findSome?_isSome_of_mem (nil_mem_walkKeys (normalize_head name))
      (by rw [he]; rfl)
  · intro name hmiss
    refine ⟨e, ?_, he, namesInv_buildTree _ _ _ he⟩
    rw [longestPrefix_eq_findSome,
      findSome?_eq_at_nil hmiss (nil_mem_walkKeys (normalize_head name)), he]

/-! ### Counterexamples and witnesses -/

/-- C1 counterexample: after `Put("/a", 1)` on a fresh tree, the root `"/"`
is an ancestor directory of `"/a"`, yet `Get("/")` reports not-found — the
synthesized root entry sits at the empty key, which `normalize` never hits. -/
theorem C1_counterexample :
    Get (Put (New Nat) (str "/a") (some 1)) (str "/") = none := by
  simp [str, Put, Get, putLoop, idxGet, idxPut, idxGetD, zeroEntry, normalize,
    Clean.eq_def, cleanLoop, splitDir, New]

theorem C1_ancestors_present_witness :
    ∃ e, Get (buildTree (([] : List (Str × Nat)) ++ (str "/a/b", (1 : Nat)) :: []))
        (str "/a") = some e ∧
      e.FullName = normalize (str "/a") ∧
      (normalize (str "/a") ∉
          ((([] : List (Str × Nat)) ++ (str "/a/b", (1 : Nat)) :: []).map
            (fun op => normalize op.1)) →
        e.Value = none) :=
  C1_ancestors_present [] [] (str "/a/b") 1 (str "/a")
    (by simp [str, normalize, Clean.eq_def, cleanLoop, splitDir, walkKeys])

/-- C2 counterexample: with exactly `"/a/b"` inserted, the query `"/a/bc"`
returns the entry `"/a/b"`, although the ancestor directories of `"/a/bc"`
are only `"/a"` and the root (keys `"/a"`, `""`, path `"/"`): the first
candidate of the walk strips one character, not one segment. -/
theorem C2_counterexample :
    (LongestPrefix (Put (New Nat) (str "/a/b") (some 1)) (str "/a/bc")).map Entry.FullName
      = some (str "/a/b") ∧
    walkKeys (splitDir (normalize (str "/a/bc"))) = [str "/a", str ""] ∧
    str "/a/b" ∉ [str "/a", str "", str "/"] := by
  refine ⟨?_, ?_, by simp [str]⟩
  · simp [str, Put, LongestPrefix, lpLoop, putLoop, idxGet, idxPut, idxGetD, zeroEntry,
      normalize, Clean.eq_def, cleanLoop, splitDir, New, Entry.FullName]
  · simp [str, normalize, Clean.eq_def, cleanLoop, splitDir, walkKeys]

theorem C3_no_exact_match_witness :
    (Entry.mk (str "/a/b") [] (some 1) : Entry Nat).FullName ≠ normalize (str "/a/b/c") :=
  C3_no_exact_match [(str "/a/b", 1)] (str "/a/b/c") (Entry.mk (str "/a/b") [] (some 1))
    (by simp [str, buildTree, List.foldl, Put, LongestPrefix, lpLoop, putLoop, idxGet,
      idxPut, idxGetD, zeroEntry, normalize, Clean.eq_def, cleanLoop, splitDir, New])

theorem C7_put_frame_witness :
    idxGet (Put (Put (New Nat) (str "/x/y") (some 5)) (str "/a") (some 7)) (str "/x/y")
      = idxGet (Put (New Nat) (str "/x/y") (some 5)) (str "/x/y") :=
  C7_put_frame (Put (New Nat) (str "/x/y") (some 5)) (str "/a") (some 7) (str "/x/y")
    (by simp [str, normalize, Clean.eq_def, cleanLoop])
    (by simp [str, normalize, Clean.eq_def, cleanLoop, splitDir, walkKeys])

theorem C10_root_entry_witness :
    (∃ e, idxGet (buildTree [(str "/a", (1 : Nat))]) [] = some e ∧ e.FullName = []) ∧
    (∀ q e, Get (buildTree [(str "/a", (1 : Nat))]) q = some e → e.FullName ≠ []) ∧
    (∀ name, (walkKeys (normalize name)).getLast? = some [] ∧
      (LongestPrefix (buildTree [(str "/a", (1 : Nat))]) name).isSome = true) ∧
    (∀ name,
      (∀ k ∈ walkKeys (normalize name), k ≠ [] →
        idxGet (buildTree [(str "/a", (1 : Nat))]) k = none) →
      ∃ e, LongestPrefix (buildTree [(str "/a", (1 : Nat))]) name = some e ∧
        idxGet (buildTree [(str "/a", (1 : Nat))]) [] = some e ∧ e.FullName = []) :=
  C10_root_entry [(str "/a", 1)] (by simp)

end Filetree
